import Mathlib

/-!
Verification of the exact reliability estimator and the statistics part of the
simulation driver from `qiskit_koon_mcx.py`.

The exact estimator `k_out_of_n_variable_p_reliability` is embedded over ℚ
(the Python code computes with floats; the properties at issue are the exact
arithmetic ones).  The statistics of `run_simulation` (mean, sample standard
deviation, Student-t confidence interval) are embedded over ℝ, with the
external `scipy.stats.t.ppf` kept as a function parameter.
-/

namespace KOutOfN

/-- Embedding of `itertools.product([0, 1], repeat=n)`: all bit tuples of
length `n`, first coordinate varying slowest (lexicographic order). -/
def allBits : ℕ → List (List ℕ)
  | 0 => [[]]
  | n + 1 => ((allBits n).map (fun bs => 0 :: bs)) ++ ((allBits n).map (fun bs => 1 :: bs))

/-- The inner loop of `k_out_of_n_variable_p_reliability`:
`prob = 1.0; for bit, p_i in zip(bits, p_list): prob *= p_i if bit == 1 else (1 - p_i)`. -/
def assignmentProb (p_list : List ℚ) (bits : List ℕ) : ℚ :=
  (bits.zip p_list).foldl (fun prob bp => prob * (if bp.1 = 1 then bp.2 else 1 - bp.2)) 1

/-- Embedding of `k_out_of_n_variable_p_reliability(p_list, k)`: iterate over all
bit assignments, and whenever `sum(bits) >= k` accumulate the product of the
per-component probabilities. -/
def k_out_of_n_variable_p_reliability (p_list : List ℚ) (k : ℤ) : ℚ :=
  (allBits p_list.length).foldl
    (fun total_prob bits =>
      if k ≤ (bits.sum : ℤ) then total_prob + assignmentProb p_list bits else total_prob)
    0

/-- Specification-side notion: the number of ones (`true` bits) of an assignment. -/
def numOnes {n : ℕ} (f : Fin n → Bool) : ℕ :=
  (Finset.univ.filter (fun i => f i = true)).card

/-- Specification-side notion: the probability mass of a single assignment, the
product over components of `p_i` when the bit is one and `1 - p_i` when it is zero. -/
def specAssignmentProb {n : ℕ} (p : Fin n → ℚ) (f : Fin n → Bool) : ℚ :=
  ∏ i, (if f i = true then p i else 1 - p i)

/-- The component probabilities of a probability vector, as a function on indices. -/
def listProbs (p_list : List ℚ) : Fin p_list.length → ℚ :=
  fun i => p_list.get i

/-- Specification-side reliability, transcribing the claim: the sum, over all
`2 ^ n` bit assignments of length `n` with at least `k` ones, of the product of
the per-component probabilities. -/
def specReliability (p_list : List ℚ) (k : ℤ) : ℚ :=
  ∑ f ∈ Finset.univ.filter (fun f : Fin p_list.length → Bool => k ≤ (numOnes f : ℤ)),
    specAssignmentProb (listProbs p_list) f

/-- The statistics record assembled at the end of `run_simulation`
(the sampling loop itself is quantum-backend code outside the statistical contract). -/
structure RunStats where
  mean_quantum : ℝ
  std_quantum : ℝ
  ci_lower : ℝ
  ci_upper : ℝ

/-- Embedding of `np.mean` on the collected batch proportions. -/
noncomputable def npMean (xs : List ℝ) : ℝ := xs.sum / xs.length

/-- Embedding of `np.std(xs, ddof=1)`: the sample standard deviation
`sqrt(Σ (x - mean)² / (m - 1))`. -/
noncomputable def npStdDdof1 (xs : List ℝ) : ℝ :=
  Real.sqrt ((xs.map (fun x => (x - npMean xs) ^ 2)).sum / (xs.length - 1))

/-- Embedding of the statistics block of `run_simulation` (lines computing
`mean_quantum`, `std_quantum`, `ci_lower`, `ci_upper`).  The batch proportions
list stands for `quantum_probs`, whose length is `num_simulations`; the external
`scipy.stats.t.ppf` is the parameter `tppf` (cumulative probability, then
degrees of freedom). -/
noncomputable def run_simulation_stats (quantum_probs : List ℝ) (confidence_level : ℝ)
    (tppf : ℝ → ℕ → ℝ) : RunStats :=
  let num_simulations := quantum_probs.length
  let mean_quantum := npMean quantum_probs
  let std_quantum := if 1 < num_simulations then npStdDdof1 quantum_probs else 0
  if 1 < num_simulations then
    let t_value := tppf ((1 + confidence_level) / 2) (num_simulations - 1)
    let se := std_quantum / Real.sqrt num_simulations
    let ci_length := t_value * se
    { mean_quantum := mean_quantum, std_quantum := std_quantum,
      ci_lower := mean_quantum - ci_length, ci_upper := mean_quantum + ci_length }
  else
    { mean_quantum := mean_quantum, std_quantum := std_quantum,
      ci_lower := mean_quantum, ci_upper := mean_quantum }

/-- Embedding of the relative-error line of `run_simulation`:
`relative_error = (abs(mean_quantum - classical_prob) / classical_prob) * 100`.
The division is the fallible operation; the source has no guard on the divisor,
so a zero divisor is the undefined (`none`) case. -/
def run_simulation_relative_error (p_list : List ℚ) (k : ℤ) (mean_quantum : ℚ) : Option ℚ :=
  let classical_prob := k_out_of_n_variable_p_reliability p_list k
  if classical_prob = 0 then none
  else some (|mean_quantum - classical_prob| / classical_prob * 100)

/-- Modelled from the spec: `scipy.stats.t.ppf` is external to the repository.
The spec calls it the Student-t critical value at the requested cumulative
probability; this records the facts about the Student-t quantile function the
claims rely on: its median is zero and it is monotone in the cumulative
probability. -/
structure StudentTPpf (tppf : ℝ → ℕ → ℝ) : Prop where
  median_eq_zero : ∀ d : ℕ, tppf (1 / 2) d = 0
  mono : ∀ d : ℕ, Monotone (fun x => tppf x d)

/-- Folding the accumulator of the main loop is summing the guarded products. -/
theorem foldl_guarded_add (c : List ℕ → Prop) [DecidablePred c] (g : List ℕ → ℚ)
    (l : List (List ℕ)) (init : ℚ) :
    l.foldl (fun t b => if c b then t + g b else t) init
      = init + (l.map (fun b => if c b then g b else 0)).sum := by
  induction l generalizing init with
  | nil => simp
  | cons b l ih =>
      by_cases hb : c b
      · simp [hb, ih, add_assoc]
      · simp [hb, ih]

/-- The product accumulator factors through its initial value. -/
theorem foldl_mul_factor (w : ℕ × ℚ → ℚ) (l : List (ℕ × ℚ)) (init : ℚ) :
    l.foldl (fun prob bp => prob * w bp) init = init * (l.map w).prod := by
  induction l generalizing init with
  | nil => simp
  | cons bp l ih => simp [ih, mul_assoc]

theorem assignmentProb_eq_prod (p_list : List ℚ) (bits : List ℕ) :
    assignmentProb p_list bits
      = ((bits.zip p_list).map (fun bp => if bp.1 = 1 then bp.2 else 1 - bp.2)).prod := by
  simpa [assignmentProb] using
    foldl_mul_factor (fun bp => if bp.1 = 1 then bp.2 else 1 - bp.2) (bits.zip p_list) 1

/-- The reliability as a plain list sum over all assignments. -/
theorem reliability_eq_sum (p_list : List ℚ) (k : ℤ) :
    k_out_of_n_variable_p_reliability p_list k
      = ((allBits p_list.length).map
          (fun bits => if k ≤ (bits.sum : ℤ) then assignmentProb p_list bits else 0)).sum := by
  simpa [k_out_of_n_variable_p_reliability] using
    foldl_guarded_add (fun bits => k ≤ (bits.sum : ℤ)) (assignmentProb p_list)
      (allBits p_list.length) 0

theorem assignmentProb_cons_zero (a : ℚ) (q : List ℚ) (bits : List ℕ) :
    assignmentProb (a :: q) (0 :: bits) = (1 - a) * assignmentProb q bits := by
  simp [assignmentProb_eq_prod, List.zip_cons_cons]

theorem assignmentProb_cons_one (a : ℚ) (q : List ℚ) (bits : List ℕ) :
    assignmentProb (a :: q) (1 :: bits) = a * assignmentProb q bits := by
  simp [assignmentProb_eq_prod, List.zip_cons_cons, mul_comm]

/-- The key recursion satisfied by the brute-force enumeration: condition on the
first component succeeding (probability `a`) or failing (probability `1 - a`). -/
theorem reliability_cons (a : ℚ) (q : List ℚ) (k : ℤ) :
    k_out_of_n_variable_p_reliability (a :: q) k
      = a * k_out_of_n_variable_p_reliability q (k - 1)
        + (1 - a) * k_out_of_n_variable_p_reliability q k := by
  have hlen : (a :: q).length = q.length + 1 := rfl
  rw [reliability_eq_sum, reliability_eq_sum, reliability_eq_sum, hlen]
  show (((allBits q.length).map (fun bs => 0 :: bs)
          ++ (allBits q.length).map (fun bs => 1 :: bs)).map
        (fun bits => if k ≤ (bits.sum : ℤ) then assignmentProb (a :: q) bits else 0)).sum = _
  rw [List.map_append, List.sum_append, List.map_map, List.map_map]
  have h0 : ((allBits q.length).map
        ((fun bits => if k ≤ (bits.sum : ℤ) then assignmentProb (a :: q) bits else 0)
          ∘ (fun bs => 0 :: bs))).sum
      = (1 - a) * ((allBits q.length).map
          (fun bits => if k ≤ (bits.sum : ℤ) then assignmentProb q bits else 0)).sum := by
    rw [← List.sum_map_mul_left]
    refine congrArg List.sum (List.map_congr_left ?_)
    intro bits _
    have h00 : (((0 :: bits).sum : ℕ) : ℤ) = (bits.sum : ℤ) := by simp
    simp only [Function.comp_apply, assignmentProb_cons_zero, h00]
    split <;> simp
  have h1 : ((allBits q.length).map
        ((fun bits => if k ≤ (bits.sum : ℤ) then assignmentProb (a :: q) bits else 0)
          ∘ (fun bs => 1 :: bs))).sum
      = a * ((allBits q.length).map
          (fun bits => if k - 1 ≤ (bits.sum : ℤ) then assignmentProb q bits else 0)).sum := by
    rw [← List.sum_map_mul_left]
    refine congrArg List.sum (List.map_congr_left ?_)
    intro bits _
    have hiff : (k ≤ ((1 :: bits).sum : ℤ)) ↔ (k - 1 ≤ (bits.sum : ℤ)) := by
      simp only [List.sum_cons, Nat.cast_add, Nat.cast_one]
      omega
    simp only [Function.comp_apply, assignmentProb_cons_one]
    rcases em (k - 1 ≤ (bits.sum : ℤ)) with h | h
    · rw [if_pos (hiff.mpr h), if_pos h]
    · rw [if_neg (fun hc => h (hiff.mp hc)), if_neg h, mul_zero]
  rw [h0, h1]
  ring

theorem reliability_nil (k : ℤ) :
    k_out_of_n_variable_p_reliability [] k = if k ≤ 0 then 1 else 0 := by
  simp [k_out_of_n_variable_p_reliability, allBits, assignmentProb]

theorem numOnes_cons {n : ℕ} (b : Bool) (g : Fin n → Bool) :
    numOnes (Fin.cons b g) = (if b = true then 1 else 0) + numOnes g := by
  simp only [numOnes, Finset.card_filter, Fin.sum_univ_succ, Fin.cons_zero, Fin.cons_succ]

theorem specAssignmentProb_cons {n : ℕ} (a : ℚ) (pg : Fin n → ℚ) (b : Bool)
    (g : Fin n → Bool) :
    specAssignmentProb (Fin.cons a pg) (Fin.cons b g)
      = (if b = true then a else 1 - a) * specAssignmentProb pg g := by
  simp only [specAssignmentProb, Fin.prod_univ_succ, Fin.cons_zero, Fin.cons_succ]

theorem listProbs_cons (a : ℚ) (q : List ℚ) :
    listProbs (a :: q) = Fin.cons a (listProbs q) := by
  funext i
  refine Fin.cases ?_ ?_ i
  · rfl
  · intro j
    rfl

/-- The sum over assignments of length `n + 1` splits by the first bit. -/
theorem spec_sum_cons {n : ℕ} (a : ℚ) (pg : Fin n → ℚ) (k : ℤ) :
    (∑ f : Fin (n + 1) → Bool,
        if k ≤ (numOnes f : ℤ) then specAssignmentProb (Fin.cons a pg) f else 0)
      = a * (∑ g : Fin n → Bool,
            if k - 1 ≤ (numOnes g : ℤ) then specAssignmentProb pg g else 0)
        + (1 - a) * (∑ g : Fin n → Bool,
            if k ≤ (numOnes g : ℤ) then specAssignmentProb pg g else 0) := by
  classical
  have honesT : ∀ g : Fin n → Bool, numOnes (Fin.cons true g) = 1 + numOnes g := by
    intro g
    rw [numOnes_cons]
    norm_num
  have honesF : ∀ g : Fin n → Bool, numOnes (Fin.cons false g) = numOnes g := by
    intro g
    rw [numOnes_cons]
    norm_num
  have hT : ∀ g : Fin n → Bool,
      (if k ≤ (numOnes (Fin.cons true g) : ℤ)
        then specAssignmentProb (Fin.cons a pg) (Fin.cons true g) else 0)
        = a * (if k - 1 ≤ (numOnes g : ℤ) then specAssignmentProb pg g else 0) := by
    intro g
    have hc : (k ≤ (numOnes (Fin.cons true g) : ℤ)) ↔ (k - 1 ≤ (numOnes g : ℤ)) := by
      rw [honesT]
      push_cast
      omega
    rw [specAssignmentProb_cons]
    rcases em (k - 1 ≤ (numOnes g : ℤ)) with h | h
    · rw [if_pos (hc.mpr h), if_pos h, if_pos rfl]
    · rw [if_neg (fun hh => h (hc.mp hh)), if_neg h, mul_zero]
  have hF : ∀ g : Fin n → Bool,
      (if k ≤ (numOnes (Fin.cons false g) : ℤ)
        then specAssignmentProb (Fin.cons a pg) (Fin.cons false g) else 0)
        = (1 - a) * (if k ≤ (numOnes g : ℤ) then specAssignmentProb pg g else 0) := by
    intro g
    have hc : (k ≤ (numOnes (Fin.cons false g) : ℤ)) ↔ (k ≤ (numOnes g : ℤ)) := by
      rw [honesF]
    rw [specAssignmentProb_cons]
    rcases em (k ≤ (numOnes g : ℤ)) with h | h
    · rw [if_pos (hc.mpr h), if_pos h]
      simp
    · rw [if_neg (fun hh => h (hc.mp hh)), if_neg h, mul_zero]
  have hce : ∀ (b : Bool) (g : Fin n → Bool),
      (Fin.consEquiv (fun _ => Bool)) (b, g) = Fin.cons b g := fun b g => rfl
  rw [← Equiv.sum_comp (Fin.consEquiv (fun _ => Bool))
      (fun f => if k ≤ (numOnes f : ℤ) then specAssignmentProb (Fin.cons a pg) f else 0)]
  rw [Fintype.sum_prod_type, Fintype.sum_bool]
  simp only [hce]
  rw [Finset.sum_congr rfl (fun g _ => hT g), Finset.sum_congr rfl (fun g _ => hF g)]
  rw [← Finset.mul_sum, ← Finset.mul_sum]

theorem specReliability_nil (k : ℤ) :
    specReliability [] k = if k ≤ 0 then 1 else 0 := by
  classical
  rw [specReliability, Finset.sum_filter]
  rw [Fintype.sum_eq_single (fun _ => false)]
  · simp [numOnes, specAssignmentProb]
  · intro f hf
    exact absurd (funext fun i => i.elim0) hf

theorem specReliability_cons (a : ℚ) (q : List ℚ) (k : ℤ) :
    specReliability (a :: q) k
      = a * specReliability q (k - 1) + (1 - a) * specReliability q k := by
  classical
  rw [specReliability, specReliability, specReliability]
  rw [Finset.sum_filter, Finset.sum_filter, Finset.sum_filter]
  rw [listProbs_cons]
  exact spec_sum_cons a (listProbs q) k

/-- There are `2 ^ n` bit assignments of length `n`. -/
theorem card_assignments (n : ℕ) : Fintype.card (Fin n → Bool) = 2 ^ n := by
  simp

/-- C1: for every probability vector `p_list` of length `n` and every integer `k`,
`k_out_of_n_variable_p_reliability(p_list, k)` returns the sum, over all `2 ^ n`
bit assignments of length `n` having at least `k` ones, of the product over
components of `p_i` when the assignment bit is one and `1 - p_i` when it is zero. -/
theorem reliability_eq_sum_over_all_assignments (p_list : List ℚ) (k : ℤ) :
    k_out_of_n_variable_p_reliability p_list k = specReliability p_list k := by
  induction p_list generalizing k with
  | nil => rw [reliability_nil, specReliability_nil]
  | cons a q ih => rw [reliability_cons, specReliability_cons, ih, ih]

theorem reliability_of_k_nonpos (p_list : List ℚ) (k : ℤ) (hk : k ≤ 0) :
    k_out_of_n_variable_p_reliability p_list k = 1 := by
  induction p_list generalizing k with
  | nil => rw [reliability_nil, if_pos hk]
  | cons a q ih =>
      rw [reliability_cons, ih _ (by omega), ih _ hk]
      ring

theorem reliability_of_length_lt_k (p_list : List ℚ) (k : ℤ)
    (hk : (p_list.length : ℤ) < k) :
    k_out_of_n_variable_p_reliability p_list k = 0 := by
  induction p_list generalizing k with
  | nil =>
      have h0 : ¬ (k ≤ 0) := by
        simp only [List.length_nil, Nat.cast_zero] at hk
        omega
      rw [reliability_nil, if_neg h0]
  | cons a q ih =>
      have hq1 : (q.length : ℤ) < k - 1 := by
        simp only [List.length_cons] at hk
        push_cast at hk
        omega
      have hq2 : (q.length : ℤ) < k := by omega
      rw [reliability_cons, ih _ hq1, ih _ hq2]
      ring

/-- C6: for every probability vector `p_list`,
`k_out_of_n_variable_p_reliability(p_list, 0)` returns exactly `1`. -/
theorem reliability_k_zero (p_list : List ℚ) :
    k_out_of_n_variable_p_reliability p_list 0 = 1 :=
  reliability_of_k_nonpos p_list 0 le_rfl

/-- C7: for every probability vector `p_list` of length `n` and every `k > n`,
`k_out_of_n_variable_p_reliability(p_list, k)` returns exactly `0`. -/
theorem reliability_k_gt_length (p_list : List ℚ) (k : ℤ)
    (hk : (p_list.length : ℤ) < k) :
    k_out_of_n_variable_p_reliability p_list k = 0 :=
  reliability_of_length_lt_k p_list k hk

theorem reliability_k_gt_length_witness :
    ((([(1 : ℚ) / 2]).length : ℤ) < 2) ∧
      k_out_of_n_variable_p_reliability [(1 : ℚ) / 2] 2 = 0 :=
  ⟨by decide, reliability_k_gt_length [(1 : ℚ) / 2] 2 (by decide)⟩

/-- C8: for every `n ≥ 0` and probability `p`, with `p_list` the constant vector
of `n` copies of `p`, `k_out_of_n_variable_p_reliability(p_list, n)` equals `p ^ n`. -/
theorem reliability_iid_k_eq_n (n : ℕ) (p : ℚ) :
    k_out_of_n_variable_p_reliability (List.replicate n p) (n : ℤ) = p ^ n := by
  induction n with
  | zero =>
      rw [List.replicate_zero, reliability_nil]
      norm_num
  | succ m ih =>
      have hk1 : ((m + 1 : ℕ) : ℤ) - 1 = (m : ℤ) := by push_cast; ring
      have h2 : k_out_of_n_variable_p_reliability (List.replicate m p) ((m + 1 : ℕ) : ℤ) = 0 := by
        apply reliability_of_length_lt_k
        rw [List.length_replicate]
        push_cast
        omega
      rw [List.replicate_succ, reliability_cons, hk1, ih, h2]
      ring

theorem reliability_iid_k_one_aux (n : ℕ) (p : ℚ) :
    k_out_of_n_variable_p_reliability (List.replicate n p) 1 = 1 - (1 - p) ^ n := by
  induction n with
  | zero =>
      rw [List.replicate_zero, reliability_nil]
      norm_num
  | succ m ih =>
      have h0 : (1 : ℤ) - 1 = 0 := rfl
      rw [List.replicate_succ, reliability_cons, h0, ih,
        reliability_of_k_nonpos _ _ le_rfl]
      ring

/-- C9: for every `n ≥ 1` and probability `p`, with `p_list` the constant vector
of `n` copies of `p`, `k_out_of_n_variable_p_reliability(p_list, 1)` equals
`1 - (1 - p) ^ n`. -/
theorem reliability_iid_k_one (n : ℕ) (p : ℚ) (_hn : 1 ≤ n) :
    k_out_of_n_variable_p_reliability (List.replicate n p) 1 = 1 - (1 - p) ^ n :=
  reliability_iid_k_one_aux n p

theorem reliability_iid_k_one_witness :
    (1 ≤ 2) ∧
      k_out_of_n_variable_p_reliability (List.replicate 2 ((1 : ℚ) / 3)) 1
        = 1 - (1 - (1 : ℚ) / 3) ^ 2 :=
  ⟨by decide, reliability_iid_k_one 2 ((1 : ℚ) / 3) (by decide)⟩

theorem reliability_mem_unit_interval_aux (p_list : List ℚ) :
    ∀ k : ℤ, (∀ p ∈ p_list, 0 ≤ p ∧ p ≤ 1) →
      0 ≤ k_out_of_n_variable_p_reliability p_list k ∧
        k_out_of_n_variable_p_reliability p_list k ≤ 1 := by
  induction p_list with
  | nil =>
      intro k _
      rw [reliability_nil]
      split <;> norm_num
  | cons a q ih =>
      intro k hp
      have ha := hp a (List.mem_cons_self a q)
      have hq : ∀ p ∈ q, 0 ≤ p ∧ p ≤ 1 := fun p hpq => hp p (List.mem_cons_of_mem a hpq)
      obtain ⟨h1l, h1u⟩ := ih (k - 1) hq
      obtain ⟨h2l, h2u⟩ := ih k hq
      rw [reliability_cons]
      constructor
      · have hm1 : 0 ≤ a * k_out_of_n_variable_p_reliability q (k - 1) :=
          mul_nonneg ha.1 h1l
        have hm2 : 0 ≤ (1 - a) * k_out_of_n_variable_p_reliability q k :=
          mul_nonneg (by linarith [ha.2]) h2l
        linarith
      · have hm1 : a * k_out_of_n_variable_p_reliability q (k - 1) ≤ a * 1 :=
          mul_le_mul_of_nonneg_left h1u ha.1
        have hm2 : (1 - a) * k_out_of_n_variable_p_reliability q k ≤ (1 - a) * 1 :=
          mul_le_mul_of_nonneg_left h2u (by linarith [ha.2])
        linarith

/-- C10: for every probability vector whose entries all lie in `[0, 1]` and every
integer `k`, the value returned by `k_out_of_n_variable_p_reliability` lies in
`[0, 1]`. -/
theorem reliability_mem_unit_interval (p_list : List ℚ) (k : ℤ)
    (hp : ∀ p ∈ p_list, 0 ≤ p ∧ p ≤ 1) :
    0 ≤ k_out_of_n_variable_p_reliability p_list k ∧
      k_out_of_n_variable_p_reliability p_list k ≤ 1 :=
  reliability_mem_unit_interval_aux p_list k hp

theorem reliability_mem_unit_interval_witness :
    (∀ p ∈ [(0 : ℚ), 1], 0 ≤ p ∧ p ≤ 1) ∧
      (0 ≤ k_out_of_n_variable_p_reliability [(0 : ℚ), 1] 1 ∧
        k_out_of_n_variable_p_reliability [(0 : ℚ), 1] 1 ≤ 1) :=
  ⟨by decide, reliability_mem_unit_interval [(0 : ℚ), 1] 1 (by decide)⟩

/-- C2: whenever the exact probability is exactly zero, the relative-error
computation of `run_simulation` divides by zero, i.e. it has no defined value
(the source has no guard on the divisor). -/
theorem relative_error_undefined_when_exact_zero (p_list : List ℚ) (k : ℤ)
    (mean_quantum : ℚ)
    (h : k_out_of_n_variable_p_reliability p_list k = 0) :
    run_simulation_relative_error p_list k mean_quantum = none := by
  simp [run_simulation_relative_error, h]

theorem relative_error_undefined_when_exact_zero_witness :
    k_out_of_n_variable_p_reliability [(1 : ℚ) / 2] 2 = 0 ∧
      run_simulation_relative_error [(1 : ℚ) / 2] 2 ((1 : ℚ) / 2) = none :=
  ⟨by rfl,
    relative_error_undefined_when_exact_zero [(1 : ℚ) / 2] 2 ((1 : ℚ) / 2) (by rfl)⟩

/-- C3: for batch count `m > 1`, the confidence interval bounds are
`mean ∓ t * s / sqrt m`, where `s` is the sample standard deviation (ddof = 1)
of the batch proportions and `t` the Student-t critical value at cumulative
probability `(1 + confidence_level) / 2` with `m - 1` degrees of freedom. -/
theorem confidence_interval_formula (qps : List ℝ) (cl : ℝ) (tppf : ℝ → ℕ → ℝ)
    (h : 1 < qps.length) :
    (run_simulation_stats qps cl tppf).mean_quantum = npMean qps ∧
    (run_simulation_stats qps cl tppf).std_quantum = npStdDdof1 qps ∧
    (run_simulation_stats qps cl tppf).ci_lower
      = npMean qps
        - tppf ((1 + cl) / 2) (qps.length - 1) * (npStdDdof1 qps / Real.sqrt qps.length) ∧
    (run_simulation_stats qps cl tppf).ci_upper
      = npMean qps
        + tppf ((1 + cl) / 2) (qps.length - 1) * (npStdDdof1 qps / Real.sqrt qps.length) := by
  refine ⟨?_, ?_, ?_, ?_⟩ <;>
    · rw [run_simulation_stats]
      simp only [if_pos h]

theorem confidence_interval_formula_witness :
    (1 < ([(0 : ℝ), 1]).length) ∧
      ((run_simulation_stats [(0 : ℝ), 1] (1 / 2) (fun _ _ => 1)).mean_quantum
          = npMean [(0 : ℝ), 1] ∧
        (run_simulation_stats [(0 : ℝ), 1] (1 / 2) (fun _ _ => 1)).std_quantum
          = npStdDdof1 [(0 : ℝ), 1] ∧
        (run_simulation_stats [(0 : ℝ), 1] (1 / 2) (fun _ _ => 1)).ci_lower
          = npMean [(0 : ℝ), 1]
            - 1 * (npStdDdof1 [(0 : ℝ), 1] / Real.sqrt (([(0 : ℝ), 1]).length)) ∧
        (run_simulation_stats [(0 : ℝ), 1] (1 / 2) (fun _ _ => 1)).ci_upper
          = npMean [(0 : ℝ), 1]
            + 1 * (npStdDdof1 [(0 : ℝ), 1] / Real.sqrt (([(0 : ℝ), 1]).length))) :=
  ⟨by decide, confidence_interval_formula [(0 : ℝ), 1] (1 / 2) (fun _ _ => 1) (by decide)⟩

/-- C4: the confidence interval contains the sample mean of the batch
proportions.  The external `scipy.stats.t.ppf` is modelled by `StudentTPpf`,
and the confidence level is nonnegative, so the Student-t critical value used is
nonnegative. -/
theorem confidence_interval_contains_mean (qps : List ℝ) (cl : ℝ) (tppf : ℝ → ℕ → ℝ)
    (hppf : StudentTPpf tppf) (hcl : 0 ≤ cl) :
    (run_simulation_stats qps cl tppf).ci_lower ≤ npMean qps ∧
      npMean qps ≤ (run_simulation_stats qps cl tppf).ci_upper := by
  have ht : 0 ≤ tppf ((1 + cl) / 2) (qps.length - 1) := by
    have h12 : (1 / 2 : ℝ) ≤ (1 + cl) / 2 := by linarith
    have hmono : tppf (1 / 2) (qps.length - 1) ≤ tppf ((1 + cl) / 2) (qps.length - 1) :=
      hppf.mono (qps.length - 1) h12
    rw [hppf.median_eq_zero (qps.length - 1)] at hmono
    exact hmono
  have hs : 0 ≤ npStdDdof1 qps := Real.sqrt_nonneg _
  have hse : 0 ≤ npStdDdof1 qps / Real.sqrt qps.length :=
    div_nonneg hs (Real.sqrt_nonneg _)
  have hlen : 0 ≤ tppf ((1 + cl) / 2) (qps.length - 1)
      * (npStdDdof1 qps / Real.sqrt qps.length) := mul_nonneg ht hse
  by_cases h : 1 < qps.length
  · rw [run_simulation_stats]
    simp only [if_pos h]
    constructor
    · show npMean qps - _ ≤ npMean qps
      linarith
    · show npMean qps ≤ npMean qps + _
      linarith
  · rw [run_simulation_stats]
    simp only [if_neg h]
    exact ⟨le_refl _, le_refl _⟩

theorem confidence_interval_contains_mean_witness :
    StudentTPpf (fun x _ => x - 1 / 2) ∧ (0 ≤ (1 / 2 : ℝ)) ∧
      ((run_simulation_stats [(0 : ℝ), 1] (1 / 2) (fun x _ => x - 1 / 2)).ci_lower
          ≤ npMean [(0 : ℝ), 1] ∧
        npMean [(0 : ℝ), 1]
          ≤ (run_simulation_stats [(0 : ℝ), 1] (1 / 2) (fun x _ => x - 1 / 2)).ci_upper) :=
  ⟨⟨fun _ => sub_self (1 / 2), fun _ x y hxy => by simpa using sub_le_sub_right hxy (1 / 2)⟩,
    one_half_pos.le,
    confidence_interval_contains_mean [(0 : ℝ), 1] (1 / 2) (fun x _ => x - 1 / 2)
      ⟨fun _ => sub_self (1 / 2), fun _ x y hxy => by simpa using sub_le_sub_right hxy (1 / 2)⟩
      one_half_pos.le⟩

/-- C5: when the batch count is `1`, both confidence interval bounds equal the
point estimate: the single batch proportion, which is the mean. -/
theorem confidence_interval_single_batch (x cl : ℝ) (tppf : ℝ → ℕ → ℝ) :
    (run_simulation_stats [x] cl tppf).ci_lower = x ∧
      (run_simulation_stats [x] cl tppf).ci_upper = x ∧
        (run_simulation_stats [x] cl tppf).mean_quantum = x := by
  have h : ¬ (1 < ([x] : List ℝ).length) := by simp
  rw [run_simulation_stats]
  simp only [if_neg h]
  simp [npMean]

end KOutOfN
